import Mathlib

/-!
Verification of the tableau Simplex engine implemented in
`src/HW1_LinCombOpt_2025/LinProg_SourceCode/ex6/lin_prog_code_HW1_6a.py`.

The source hardcodes one problem instance, but its `while True` loop body is
a generic simplex iteration over `(A, b, c, basic_vars, nonbasic_vars)`; the
specification (section 6) presents exactly that loop as an engine consuming
caller-supplied `A`, `b`, `c` and an initial basis.  We embed the loop body
verbatim over those parameters.  Variables are their column indices
(`var_indices[v] = v` in the source), and all arithmetic is exact rational,
matching the source's use of exact sympy rationals.

Vectors are `List ℚ`, matrices are `List (List ℚ)` in row-major order.
-/

def dot (u v : List ℚ) : ℚ := (List.zipWith (· * ·) u v).sum

/-- Column `j` of a row-major matrix (`A[:, j]` in the source). -/
def getCol (M : List (List ℚ)) (j : Nat) : List ℚ := M.map (fun r => r.getD j 0)

/-- Matrix–vector product. -/
def matVec (M : List (List ℚ)) (v : List ℚ) : List ℚ := M.map (fun r => dot r v)

/-- The `m × m` identity matrix. -/
def idMat (m : Nat) : List (List ℚ) :=
  (List.range m).map (fun i => (List.range m).map (fun j => if i = j then (1 : ℚ) else 0))

/-- Matrix–matrix product (number of columns read off the first row of `Q`). -/
def matMul (P Q : List (List ℚ)) : List (List ℚ) :=
  P.map (fun row => (List.range (Q.headD []).length).map (fun j => dot row (getCol Q j)))

/-- Column selection `A[:, cols]` from the source (`B = A[:, [var_indices[v] ...]]`). -/
def subCols (M : List (List ℚ)) (cols : List Nat) : List (List ℚ) :=
  M.map (fun r => cols.map (fun j => r.getD j 0))

/-- First row index `r ≥ k` whose entry in column `k` is nonzero. -/
def pivotRow (rows : List (List ℚ)) (k : Nat) : Option Nat :=
  (List.range rows.length).find? (fun r => decide (k ≤ r) && decide ((rows.getD r []).getD k 0 ≠ 0))

def swapRows (rows : List (List ℚ)) (i j : Nat) : List (List ℚ) :=
  let ri := rows.getD i []
  let rj := rows.getD j []
  (rows.set i rj).set j ri

/-- One Gauss–Jordan elimination step on column `k` of an augmented matrix. -/
def elimStep (rows : List (List ℚ)) (k : Nat) : Option (List (List ℚ)) :=
  match pivotRow rows k with
  | none => none
  | some r =>
    let rows1 := swapRows rows k r
    let piv := (rows1.getD k []).getD k 0
    let pk := (rows1.getD k []).map (fun x => x / piv)
    let rows2 := rows1.set k pk
    some ((List.range rows2.length).foldl (fun acc i =>
      if i = k then acc
      else
        let ri := acc.getD i []
        acc.set i (List.zipWith (fun a y => a - (ri.getD k 0) * y) ri pk)) rows2)

def gaussJordan (rows : List (List ℚ)) : Option (List (List ℚ)) :=
  (List.range rows.length).foldl (fun acc k => acc.bind (fun rs => elimStep rs k)) (some rows)

/-- Modelled library call: `sympy.Matrix.inv` (`B_inv = B.inv()` in the source).
The library's contract is: return the exact inverse of `B`, or raise when `B`
is singular (`none` here).  We compute the inverse by Gauss–Jordan elimination
on the identity-augmented matrix and then verify the defining equations of the
inverse (and the shape) before returning, so that `matInv B = some M` certifies
`M * B = B * M = 1` by construction, exactly the library's contract. -/
def matInv (B : List (List ℚ)) : Option (List (List ℚ)) :=
  let m := B.length
  match gaussJordan (List.zipWith (fun row e => row ++ e) B (idMat m)) with
  | none => none
  | some rows =>
    let M := rows.map (fun r => r.drop m)
    if M.length = m ∧ (∀ r ∈ M, r.length = m) ∧
        matMul M B = idMat m ∧ matMul B M = idMat m
    then some M else none

/-- The evolving loop state: `basic_vars` and `nonbasic_vars` (lists of column
indices, source lines 56–57 and 139–141). -/
structure SState where
  basic : List Nat
  nonbasic : List Nat
deriving DecidableEq

/-- A problem instance `(A, b, c)` (source lines 43–51). -/
structure LP where
  A : List (List ℚ)
  b : List ℚ
  c : List ℚ
deriving DecidableEq

/-- Outcome of one execution of the loop body (source lines 64–142). -/
inductive StepResult where
  /-- some component of `B⁻¹b` is negative: print and `return` (lines 71–73) -/
  | infeasible
  /-- all `z_j ≤ 0`: `break` out of the loop (lines 91–93) -/
  | optimal
  /-- every ratio infinite: print and `return` (lines 117–119) -/
  | unbounded
  /-- `B.inv()` raised: the basis submatrix is singular (line 67) -/
  | singular
  /-- `nonbasic_vars[entering_idx]` raised `IndexError` (line 106) -/
  | indexError
  /-- `entering_idx` is still `None` at line 106 (unreachable) -/
  | stuck
  /-- a pivot was performed; `next` is the state after the swap (lines 140–141) -/
  | pivot (next : SState)
deriving DecidableEq

/-- `c_B`: objective coefficients of the basic variables (source line 76). -/
def cB (lp : LP) (s : SState) : List ℚ := s.basic.map (fun j => lp.c.getD j 0)

/-- The reduced-cost row (source lines 78–85): `0` for a basic variable, and
`c_j − c_B·(B⁻¹·A_j)` for a non-basic one.  The source computes the scalar as
`(c_B.T * B_inv * Aj)[0, 0]`; reassociating to `c_B · (B⁻¹ · A_j)` is the same
rational number. -/
def zRow (lp : LP) (Binv : List (List ℚ)) (s : SState) : List ℚ :=
  (List.range lp.c.length).map (fun j =>
    if j ∈ s.basic then 0
    else lp.c.getD j 0 - dot (cB lp s) (matVec Binv (getCol lp.A j)))

/-- Comparison of ratios where `none` stands for `float('inf')` (line 115). -/
def ratioLE : Option ℚ → Option ℚ → Bool
  | _, none => true
  | none, some _ => false
  | some a, some y => decide (a ≤ y)

def ratioMin (a y : Option ℚ) : Option ℚ := if ratioLE a y then a else y

/-- `min(ratios)` (source line 121); Python's `min` folds over the list from
its head. -/
def ratioMinVal : List (Option ℚ) → Option ℚ
  | [] => none
  | a :: as => as.foldl ratioMin a

/-- The ratio list (source lines 110–115): `xB_i / d_i` when `d_i > 0`, else
infinite. -/
def ratioList (xbv d : List ℚ) : List (Option ℚ) :=
  List.zipWith (fun x di => if 0 < di then some (x / di) else none) xbv d

/-- `ratios.index(min_ratio)` (source line 122): first index holding the
minimum. -/
def exitIdxOf (l : List (Option ℚ)) : Nat :=
  l.findIdx (fun q => decide (q = ratioMinVal l))

/-- One execution of the loop body of `main` (source lines 64–142), faithful
to the source's order of tests:
1. `B = A[:, basic]`, `B_inv = B.inv()` (singular ⇒ the library raises);
2. `xB = B⁻¹·b`; if any component is negative ⇒ infeasible initial basis;
3. compute the z-row; if all entries `≤ 0` ⇒ optimal;
4. `entering_idx` := first index `i` (scanning `z_row` left to right over all
   variables) with `z_row[i] > 0`; `entering_var = nonbasic_vars[entering_idx]`
   (an `IndexError` when `entering_idx ≥ len(nonbasic_vars)`);
5. `d = B⁻¹·A[:, entering_var]`; ratios by the minimum-ratio rule; all
   infinite ⇒ unbounded;
6. otherwise swap: `basic_vars[exiting_idx] = entering_var;
   nonbasic_vars[entering_idx] = exiting_var`. -/
def step (lp : LP) (s : SState) : StepResult :=
  match matInv (subCols lp.A s.basic) with
  | none => .singular
  | some Binv =>
    let xbv := matVec Binv lp.b
    bif xbv.any (fun v => decide (v < 0)) then .infeasible
    else
      let z := zRow lp Binv s
      bif z.all (fun q => decide (q ≤ 0)) then .optimal
      else
        match z.findIdx? (fun q => decide (0 < q)) with
        | none => .stuck
        | some eIdx =>
          match s.nonbasic[eIdx]? with
          | none => .indexError
          | some eVar =>
            let d := matVec Binv (getCol lp.A eVar)
            let rs := ratioList xbv d
            bif rs.all (fun q => q.isNone) then .unbounded
            else
              let r := exitIdxOf rs
              .pivot ⟨s.basic.set r eVar, s.nonbasic.set eIdx (s.basic.getD r 0)⟩

/-- Reconstruction of the full solution vector on normal termination (source
lines 145–147): start from all zeros, then `full_solution[basic[i]] = xB[i]`.
The source converts the exact values to `float` for display only; we keep the
exact rationals. -/
def finalSolution (lp : LP) (s : SState) (xbv : List ℚ) : List ℚ :=
  (s.basic.zip xbv).foldl (fun acc p => acc.set p.1 p.2) (List.replicate lp.c.length (0 : ℚ))

/-- The reported objective value (source line 150): `sum(c[i] * x[i])`. -/
def objFinal (lp : LP) (x : List ℚ) : ℚ :=
  ((List.range lp.c.length).map (fun i => lp.c.getD i 0 * x.getD i 0)).sum

/-- Outcome of running the whole loop (with fuel, since the source's
`while True` need not terminate). -/
inductive RunResult where
  | infeasible
  | unbounded
  | singular
  | indexError
  | stuck
  | outOfFuel
  | optimal (final : SState) (x : List ℚ) (z : ℚ)
deriving DecidableEq

/-- The `while True` loop of `main` (source lines 64–142) followed by the
final-solution reconstruction (lines 144–155), with fuel. -/
def run (lp : LP) : Nat → SState → RunResult
  | 0, _ => .outOfFuel
  | fuel + 1, s =>
    match step lp s with
    | .singular => .singular
    | .infeasible => .infeasible
    | .unbounded => .unbounded
    | .indexError => .indexError
    | .stuck => .stuck
    | .optimal =>
      match matInv (subCols lp.A s.basic) with
      | none => .singular
      | some Binv =>
        let x := finalSolution lp s (matVec Binv lp.b)
        .optimal s x (objFinal lp x)
    | .pivot s' => run lp fuel s'

/-- `k` successful pivots from `s` (`none` when the loop stops or errors
before completing them). -/
def stepN (lp : LP) : Nat → SState → Option SState
  | 0, s => some s
  | k + 1, s =>
    match step lp s with
    | .pivot s' => stepN lp k s'
    | _ => none

/-- The basic-variable value vector `xB = B⁻¹·b` at a state (source line 70),
when the basis submatrix is invertible. -/
def xBOf (lp : LP) (s : SState) : Option (List ℚ) :=
  (matInv (subCols lp.A s.basic)).map (fun Binv => matVec Binv lp.b)

/-- The objective value `c_B · xB` at a state.  (Source line 87 stores its
negation `-(c_B.T * xB)` as the `-Z` tableau entry.) -/
def objVal (lp : LP) (s : SState) : Option ℚ :=
  (matInv (subCols lp.A s.basic)).map (fun Binv => dot (cB lp s) (matVec Binv lp.b))

/-- The z-row at a state, when the basis submatrix is invertible. -/
def zRowOf (lp : LP) (s : SState) : Option (List ℚ) :=
  (matInv (subCols lp.A s.basic)).map (fun Binv => zRow lp Binv s)

/-- Well-formed state for instance `lp`: the dimensions match and
`basic_vars ++ nonbasic_vars` is a permutation of all `n` column indices
(the source establishes this at lines 37, 56–57 for its instance). -/
def WF (lp : LP) (s : SState) : Prop :=
  lp.A.length = lp.b.length ∧ (∀ r ∈ lp.A, r.length = lp.c.length) ∧
  s.basic.length = lp.b.length ∧ (s.basic ++ s.nonbasic).Perm (List.range lp.c.length)

instance (lp : LP) (s : SState) : Decidable (WF lp s) := by
  unfold WF
  infer_instance

/-- The hardcoded instance of the source (lines 43–51): `A` is `3 × 7` with
slack columns 4, 5, 6, `b = (6, 12, 2)`, `c = (2, 1, 6, −4, 0, 0, 0)`. -/
def exA : LP :=
  { A := [[1, 2, 4, -1, 1, 0, 0], [2, 3, -1, 1, 0, 1, 0], [1, 0, 1, 1, 0, 0, 1]]
    b := [6, 12, 2]
    c := [2, 1, 6, -4, 0, 0, 0] }

/-- The source's initial state (lines 56–57): basis `x5, x6, x7` = columns
`4, 5, 6`, non-basis `x1..x4` = columns `0..3`. -/
def exInit : SState := { basic := [4, 5, 6], nonbasic := [0, 1, 2, 3] }

/-- A legitimate engine input on the same `A, b, c`: initial basis
`x5, x6, x1` (columns 4, 5, 0), feasible (`B⁻¹b = (4, 8, 2) ≥ 0`), with the
non-basis listed as the complementary columns in increasing order. -/
def misState : SState := { basic := [4, 5, 0], nonbasic := [1, 2, 3, 6] }

/-- Instance on which the entering-variable index leaves the range of
`nonbasic_vars`: one constraint, two variables, basis `x1`. -/
def lpIdxErr : LP := { A := [[1, 1]], b := [1], c := [0, 1] }

/-- Instance with an infeasible initial basis: basis column 1 gives
`B = (−1)`, `B⁻¹b = (−1) < 0`. -/
def lpInfeas : LP := { A := [[1, -1]], b := [1], c := [0, 0] }

/-- Instance that is unbounded along the entering column: entering `x1` has
`d = (−1) ≤ 0`. -/
def lpUnb : LP := { A := [[-1, 1]], b := [1], c := [1, 0] }

/-- Instance on which the pivot strictly decreases the objective. -/
def lpDecr : LP := { A := [[1, 1, 2]], b := [2], c := [0, 1, -1] }

/-- Instance on which the loop cycles forever between two bases although
every basic-variable value stays `1 ≠ 0` (no degeneracy). -/
def lpCycle : LP := { A := [[1, 1, 1]], b := [1], c := [0, 1, 0] }

def cycleA : SState := { basic := [0], nonbasic := [1, 2] }

def cycleB : SState := { basic := [2], nonbasic := [1, 0] }

/-- State for `lpIdxErr`: basis `x1` (column 0), non-basis `x2` (column 1). -/
def idxErrState : SState := { basic := [0], nonbasic := [1] }

/-- State for `lpInfeas`: basis column 1, non-basis column 0. -/
def infeasState : SState := { basic := [1], nonbasic := [0] }

/-- State for `lpUnb`: basis column 1, non-basis column 0. -/
def unbState : SState := { basic := [1], nonbasic := [0] }

/-- The optimal state the engine reaches on the source's instance: basis
`x3, x6, x1` (columns 2, 5, 0). -/
def optState : SState := { basic := [2, 5, 0], nonbasic := [6, 4, 1, 3] }

/-- Initial state for `lpDecr`: basis column 0. -/
def decrState : SState := { basic := [0], nonbasic := [1, 2] }

/-- State of `lpDecr` after one pivot of the engine. -/
def decrNext : SState := { basic := [2], nonbasic := [1, 0] }

/-! ## Theorems -/

/-- The loop on `lpCycle` never leaves the two-state cycle
`cycleA → cycleB → cycleA → …`. -/
theorem runCycle_outOfFuel :
    ∀ fuel, run lpCycle fuel cycleA = .outOfFuel ∧ run lpCycle fuel cycleB = .outOfFuel := by
  have hA : step lpCycle cycleA = .pivot cycleB := by with_unfolding_all decide
  have hB : step lpCycle cycleB = .pivot cycleA := by with_unfolding_all decide
  intro fuel
  induction fuel with
  | zero => exact ⟨rfl, rfl⟩
  | succ f ih =>
    refine ⟨?_, ?_⟩
    · show run lpCycle (f + 1) cycleA = .outOfFuel
      simp only [run, hA]
      exact ih.2
    · show run lpCycle (f + 1) cycleB = .outOfFuel
      simp only [run, hB]
      exact ih.1

/-- Claim C1: the claim says the variable entering the basis is the FIRST
variable, in column order `0..n-1`, with reduced cost `z_j > 0`.  The code
violates this: at a legitimate feasible state of the source's own instance
(basis `x5, x6, x1`, non-basis `x2, x3, x4, x7` in column order) the first
variable with positive reduced cost is column 1 (`x2`, with `z = 1 > 0`), but
the code enters `nonbasic_vars[1]` = column 2 (`x3`) instead, because line 106
of the source indexes `nonbasic_vars` with an index into the full `z_row`. -/
theorem claim1_enteringRule_violated :
    ∃ Binv, matInv (subCols exA.A misState.basic) = some Binv ∧
      (zRow exA Binv misState).findIdx? (fun q => decide (0 < q)) = some 1 ∧
      (0 : ℚ) < (zRow exA Binv misState).getD 1 0 ∧
      step exA misState = .pivot { basic := [2, 5, 0], nonbasic := [1, 4, 3, 6] } ∧
      (1 : Nat) ∉ ([2, 5, 0] : List Nat) := by
  refine ⟨[[1, 0, -1], [0, 1, -2], [0, 0, 1]], ?_, ?_, ?_, ?_, ?_⟩ <;>
    with_unfolding_all decide

/-- Claim C3: the claim says `nonbasic_vars[entering_idx]` never indexes out
of range.  It does: on `lpIdxErr` from its (feasible, well-formed) initial
state the first positive reduced cost sits at column index 1, while
`nonbasic_vars` has length 1, so line 106 of the source raises `IndexError`
at iteration 0. -/
theorem claim3_enteringIndex_overflow :
    WF lpIdxErr idxErrState ∧
    ∃ Binv, matInv (subCols lpIdxErr.A idxErrState.basic) = some Binv ∧
      (zRow lpIdxErr Binv idxErrState).findIdx? (fun q => decide (0 < q)) = some 1 ∧
      idxErrState.nonbasic[1]? = none ∧
      step lpIdxErr idxErrState = .indexError := by
  refine ⟨by decide, [[1]], ?_, ?_, ?_, ?_⟩ <;> with_unfolding_all decide

/-- Claim C9: the claim says the objective value never decreases from one
iteration to the next.  On `lpDecr` the engine pivots from basis `{0}`
(objective `0`, basic value `2`) to basis `{2}` (objective `−1`): the pivot
enters column 2, whose reduced cost is `−1 < 0`, because line 106 of the
source picks `nonbasic_vars[1]` although the positive reduced cost at index 1
belongs to column 1.  The objective strictly decreases on a non-degenerate
pivot. -/
theorem claim9_objective_decreases :
    WF lpDecr decrState ∧
    step lpDecr decrState = .pivot decrNext ∧
    objVal lpDecr decrState = some 0 ∧
    objVal lpDecr decrNext = some (-1) ∧
    xBOf lpDecr decrState = some [2] ∧
    xBOf lpDecr decrNext = some [1] ∧
    ¬ ((0 : ℚ) ≤ -1) := by
  refine ⟨by decide, ?_, ?_, ?_, ?_, ?_, ?_⟩ <;> with_unfolding_all decide

/-- Claim C10: the claim says the loop terminates on every non-degenerate
input.  On `lpCycle` (a legitimate, well-formed, feasible input) the loop
cycles forever between the bases `{0}` and `{2}`; the basic-variable value is
`1 ≠ 0` at both encountered states, so no degeneracy is ever encountered,
yet `run` never reaches a stopping condition for any amount of fuel. -/
theorem claim10_nontermination_nondegenerate :
    WF lpCycle cycleA ∧
    step lpCycle cycleA = .pivot cycleB ∧
    step lpCycle cycleB = .pivot cycleA ∧
    xBOf lpCycle cycleA = some [1] ∧
    xBOf lpCycle cycleB = some [1] ∧
    (1 : ℚ) ≠ 0 ∧
    ∀ fuel, run lpCycle fuel cycleA = .outOfFuel := by
  refine ⟨by decide, by with_unfolding_all decide, by with_unfolding_all decide,
    by with_unfolding_all decide, by with_unfolding_all decide,
    by with_unfolding_all decide, fun fuel => (runCycle_outOfFuel fuel).1⟩

/-- If `findIdx?` finds an index, some element of the list satisfies the
predicate. -/
theorem exists_of_findIdx?_some {α : Type} {p : α → Bool} {l : List α} {i : Nat}
    (h : l.findIdx? p = some i) : ∃ x ∈ l, p x = true := by
  rw [List.findIdx?_eq_some_iff_getElem] at h
  obtain ⟨hi, hp, -⟩ := h
  exact ⟨l[i], List.getElem_mem hi, hp⟩

/-- When the entering column's direction vector has no positive entry, every
ratio is infinite. -/
theorem ratioList_all_none {d : List ℚ} (hd : ∀ di ∈ d, di ≤ 0) :
    ∀ xbv : List ℚ, (ratioList xbv d).all (fun q => q.isNone) = true := by
  induction d with
  | nil => intro xbv; cases xbv <;> rfl
  | cons y ys ih =>
    intro xbv
    cases xbv with
    | nil => rfl
    | cons x xs =>
      have hy : ¬ (0 : ℚ) < y := not_lt.mpr (hd y (List.mem_cons_self y ys))
      simp only [ratioList, List.zipWith_cons_cons, List.all_cons, if_neg hy,
        Option.isNone_none, Bool.true_and]
      exact ih (fun di hdi => hd di (List.mem_cons_of_mem y hdi)) xs

/-- Claim C7: if at any iteration some component of `xB = B⁻¹·b` is negative,
the loop body reports the infeasible-initial-basis condition and the loop
stops there (no pivot is attempted), whatever fuel remains. -/
theorem claim7_infeasible_stops (lp : LP) (s : SState) (Binv : List (List ℚ))
    (hinv : matInv (subCols lp.A s.basic) = some Binv)
    (hneg : ∃ v ∈ matVec Binv lp.b, v < 0) :
    step lp s = .infeasible ∧ ∀ fuel, run lp (fuel + 1) s = .infeasible := by
  have hany : (matVec Binv lp.b).any (fun v => decide (v < 0)) = true := by
    rw [List.any_eq_true]
    obtain ⟨v, hv, hlt⟩ := hneg
    exact ⟨v, hv, decide_eq_true hlt⟩
  have hstep : step lp s = .infeasible := by
    simp only [step, hinv, hany, cond_true]
  exact ⟨hstep, fun fuel => by simp [run, hstep]⟩

/-- Witness for claim C7 on a concrete instance: basis column 1 of `lpInfeas`
gives `B⁻¹b = (−1)`, and the engine reports infeasibility at iteration 0. -/
theorem claim7_witness :
    step lpInfeas infeasState = .infeasible ∧ run lpInfeas 1 infeasState = .infeasible := by
  have h := claim7_infeasible_stops lpInfeas infeasState [[-1]]
    (by with_unfolding_all decide) (by with_unfolding_all decide)
  exact ⟨h.1, h.2 0⟩

/-- Claim C8: if the selected entering variable's direction vector
`d = B⁻¹·A_enter` has `d_i ≤ 0` in every row, the loop body reports
unboundedness and the loop stops there, without pivoting or looping
further. -/
theorem claim8_unbounded_stops (lp : LP) (s : SState) (Binv : List (List ℚ)) (eIdx eVar : Nat)
    (hinv : matInv (subCols lp.A s.basic) = some Binv)
    (hfeas : (matVec Binv lp.b).any (fun v => decide (v < 0)) = false)
    (hent : (zRow lp Binv s).findIdx? (fun q => decide (0 < q)) = some eIdx)
    (hvar : s.nonbasic[eIdx]? = some eVar)
    (hd : ∀ di ∈ matVec Binv (getCol lp.A eVar), di ≤ 0) :
    step lp s = .unbounded ∧ ∀ fuel, run lp (fuel + 1) s = .unbounded := by
  have hallz : (zRow lp Binv s).all (fun q => decide (q ≤ 0)) = false := by
    obtain ⟨x, hx, hpx⟩ := exists_of_findIdx?_some hent
    rw [decide_eq_true_eq] at hpx
    refine (Bool.eq_false_iff).mpr (fun hall => ?_)
    have := List.all_eq_true.mp hall x hx
    rw [decide_eq_true_eq] at this
    exact absurd hpx (not_lt.mpr this)
  have hnone := ratioList_all_none hd (matVec Binv lp.b)
  have hstep : step lp s = .unbounded := by
    simp only [step, hinv, hfeas, cond_false, hallz, hent, hvar, hnone, cond_true]
  exact ⟨hstep, fun fuel => by simp [run, hstep]⟩

/-- Witness for claim C8 on a concrete instance: on `lpUnb` from basis
column 1, the entering column 0 has direction `d = (−1) ≤ 0` and the engine
reports unboundedness. -/
theorem claim8_witness :
    step lpUnb unbState = .unbounded ∧ run lpUnb 1 unbState = .unbounded := by
  have h := claim8_unbounded_stops lpUnb unbState [[1]] 0 0
    (by with_unfolding_all decide) (by with_unfolding_all decide)
    (by with_unfolding_all decide) (by with_unfolding_all decide)
    (by with_unfolding_all decide)
  exact ⟨h.1, h.2 0⟩

/-- Inversion: when the loop body reports optimality, the basis inverse
existed, the feasibility check passed, and every z-row entry is `≤ 0`. -/
theorem step_optimal_inv {lp : LP} {s : SState} (h : step lp s = .optimal) :
    ∃ Binv, matInv (subCols lp.A s.basic) = some Binv ∧
      (matVec Binv lp.b).any (fun v => decide (v < 0)) = false ∧
      (zRow lp Binv s).all (fun q => decide (q ≤ 0)) = true := by
  unfold step at h
  cases hinv : matInv (subCols lp.A s.basic) with
  | none => simp [hinv] at h
  | some Binv =>
    simp only [hinv] at h
    cases hany : (matVec Binv lp.b).any (fun v => decide (v < 0)) with
    | true => simp [hany] at h
    | false =>
      simp only [hany, cond_false] at h
      cases hall : (zRow lp Binv s).all (fun q => decide (q ≤ 0)) with
      | true => exact ⟨Binv, rfl, hany, hall⟩
      | false =>
        exfalso
        simp only [hall, cond_false] at h
        cases hfi : (zRow lp Binv s).findIdx? (fun q => decide (0 < q)) with
        | none => simp [hfi] at h
        | some eIdx =>
          simp only [hfi] at h
          cases hg : s.nonbasic[eIdx]? with
          | none => simp [hg] at h
          | some eVar =>
            simp only [hg] at h
            cases hrs : (ratioList (matVec Binv lp.b)
                (matVec Binv (getCol lp.A eVar))).all (fun q => q.isNone) with
            | true => simp [hrs] at h
            | false => simp [hrs] at h

/-- Inversion: when the loop body pivots, all guards passed and the new state
is exactly the swap of the entering and leaving variables. -/
theorem step_pivot_inv {lp : LP} {s s' : SState} (h : step lp s = .pivot s') :
    ∃ Binv eIdx eVar,
      matInv (subCols lp.A s.basic) = some Binv ∧
      (matVec Binv lp.b).any (fun v => decide (v < 0)) = false ∧
      (zRow lp Binv s).all (fun q => decide (q ≤ 0)) = false ∧
      (zRow lp Binv s).findIdx? (fun q => decide (0 < q)) = some eIdx ∧
      s.nonbasic[eIdx]? = some eVar ∧
      (ratioList (matVec Binv lp.b) (matVec Binv (getCol lp.A eVar))).all
        (fun q => q.isNone) = false ∧
      s' = ⟨s.basic.set
              (exitIdxOf (ratioList (matVec Binv lp.b) (matVec Binv (getCol lp.A eVar)))) eVar,
            s.nonbasic.set eIdx
              (s.basic.getD
                (exitIdxOf (ratioList (matVec Binv lp.b) (matVec Binv (getCol lp.A eVar)))) 0)⟩ := by
  unfold step at h
  cases hinv : matInv (subCols lp.A s.basic) with
  | none => simp [hinv] at h
  | some Binv =>
    simp only [hinv] at h
    cases hany : (matVec Binv lp.b).any (fun v => decide (v < 0)) with
    | true => simp [hany] at h
    | false =>
      simp only [hany, cond_false] at h
      cases hall : (zRow lp Binv s).all (fun q => decide (q ≤ 0)) with
      | true => simp [hall] at h
      | false =>
        simp only [hall, cond_false] at h
        cases hfi : (zRow lp Binv s).findIdx? (fun q => decide (0 < q)) with
        | none => simp [hfi] at h
        | some eIdx =>
          simp only [hfi] at h
          cases hg : s.nonbasic[eIdx]? with
          | none => simp [hg] at h
          | some eVar =>
            simp only [hg] at h
            cases hrs : (ratioList (matVec Binv lp.b)
                (matVec Binv (getCol lp.A eVar))).all (fun q => q.isNone) with
            | true => simp [hrs] at h
            | false =>
              simp only [hrs, cond_false] at h
              exact ⟨Binv, eIdx, eVar, rfl, hany, hall, hfi, hg, hrs,
                (StepResult.pivot.inj h).symm⟩

/-- Claim C4: with an invertible basis and the feasibility guard passed, the
loop body reports optimality exactly when every entry of the reduced-cost row
(`0` for basic variables, `c_j − c_B·B⁻¹·A_j` for non-basic ones) is `≤ 0`;
consequently, at an optimal stop every non-basic variable has reduced cost
`c_j − c_B·B⁻¹·A_j ≤ 0`. -/
theorem claim4_optimal_iff_zrow_nonpos (lp : LP) (s : SState) (Binv : List (List ℚ))
    (hwf : WF lp s)
    (hinv : matInv (subCols lp.A s.basic) = some Binv)
    (hfeas : (matVec Binv lp.b).any (fun v => decide (v < 0)) = false) :
    (step lp s = .optimal ↔ ∀ q ∈ zRow lp Binv s, q ≤ 0) ∧
    (step lp s = .optimal → ∀ j ∈ s.nonbasic,
        lp.c.getD j 0 - dot (cB lp s) (matVec Binv (getCol lp.A j)) ≤ 0) := by
  have hiff : step lp s = .optimal ↔ ∀ q ∈ zRow lp Binv s, q ≤ 0 := by
    constructor
    · intro h
      obtain ⟨B', hB', -, hall⟩ := step_optimal_inv h
      rw [hinv, Option.some_inj] at hB'
      subst hB'
      intro q hq
      exact of_decide_eq_true (List.all_eq_true.mp hall q hq)
    · intro hq
      have hall : (zRow lp Binv s).all (fun q => decide (q ≤ 0)) = true :=
        List.all_eq_true.mpr (fun q hmem => decide_eq_true (hq q hmem))
      simp only [step, hinv, hfeas, cond_false, hall, cond_true]
  refine ⟨hiff, fun hopt j hj => ?_⟩
  have hq := hiff.mp hopt
  have hperm := hwf.2.2.2
  have hjr : j ∈ List.range lp.c.length :=
    hperm.mem_iff.mp (List.mem_append_right _ hj)
  have hnd : (s.basic ++ s.nonbasic).Nodup :=
    hperm.nodup_iff.mpr (List.nodup_range _)
  have hdisj := (List.nodup_append.mp hnd).2.2
  have hjb : j ∉ s.basic := fun hb => hdisj hb hj
  have hmem : (if j ∈ s.basic then (0 : ℚ)
      else lp.c.getD j 0 - dot (cB lp s) (matVec Binv (getCol lp.A j))) ∈ zRow lp Binv s :=
    List.mem_map_of_mem _ hjr
  rw [if_neg hjb] at hmem
  exact hq _ hmem

/-- Witness for claim C4 at the optimal state the engine reaches on the
source's instance. -/
theorem claim4_witness :
    step exA optState = .optimal ∧
    ∀ q ∈ zRow exA [[1/3, 0, -1/3], [1, 1, -3], [-1/3, 0, 4/3]] optState, q ≤ 0 := by
  have h := claim4_optimal_iff_zrow_nonpos exA optState
    [[1/3, 0, -1/3], [1, 1, -3], [-1/3, 0, 4/3]]
    (by decide) (by with_unfolding_all decide) (by with_unfolding_all decide)
  have hstep : step exA optState = .optimal := by with_unfolding_all decide
  exact ⟨hstep, h.1.mp hstep⟩

/-- Reading `getD` below the length is reading the element. -/
theorem getD_lt_eq {α : Type} (l : List α) (n : Nat) (d : α) (h : n < l.length) :
    l.getD n d = l[n] := by
  rw [List.getD_eq_getElem?_getD, List.getElem?_eq_getElem h]
  rfl

/-- What a successful `matInv` certifies: the result has the shape of `B` and
satisfies both defining equations of the inverse. -/
theorem matInv_spec {B M : List (List ℚ)} (h : matInv B = some M) :
    M.length = B.length ∧ (∀ r ∈ M, r.length = B.length) ∧
    matMul M B = idMat B.length ∧ matMul B M = idMat B.length := by
  unfold matInv at h
  cases hg : gaussJordan (List.zipWith (fun row e => row ++ e) B (idMat B.length)) with
  | none => simp [hg] at h
  | some rows =>
    simp only [hg] at h
    split at h
    · rename_i hc
      cases h
      exact hc
    · exact absurd h (by simp)

/-- Replacing one entry shifts the multiset of a list by removing the old
entry and adding the new one (stated additively over counts). -/
theorem count_set_add {l : List Nat} {n : Nat} (x a : Nat) (h : n < l.length) :
    (l.set n x).count a + (if a = l.getD n 0 then 1 else 0)
      = l.count a + (if a = x then 1 else 0) := by
  induction l generalizing n with
  | nil => exact absurd h (by simp)
  | cons hd tl ih =>
    cases n with
    | zero =>
      simp only [List.set_cons_zero, List.count_cons, List.getD_cons_zero, beq_iff_eq]
      split_ifs <;> omega
    | succ n' =>
      have h' : n' < tl.length := by simpa using h
      have hih := ih (n := n') h'
      simp only [List.set_cons_succ, List.count_cons, List.getD_cons_succ, beq_iff_eq]
      omega

/-- Swapping an element of `u` with an element of `v` permutes `u ++ v`. -/
theorem set_swap_perm {u v : List Nat} {r i : Nat} (hr : r < u.length) (hi : i < v.length) :
    ((u.set r (v.getD i 0)) ++ (v.set i (u.getD r 0))).Perm (u ++ v) := by
  rw [List.perm_iff_count]
  intro a
  rw [List.count_append, List.count_append]
  have h1 := count_set_add (l := u) (n := r) (v.getD i 0) a hr
  have h2 := count_set_add (l := v) (n := i) (u.getD r 0) a hi
  omega

/-- `ratioMin` picks one of its arguments. -/
theorem ratioMin_eq_or (a y : Option ℚ) : ratioMin a y = a ∨ ratioMin a y = y := by
  unfold ratioMin
  split
  · exact Or.inl rfl
  · exact Or.inr rfl

/-- A `ratioMin` fold returns the seed or a list element. -/
theorem foldl_ratioMin_mem : ∀ (as : List (Option ℚ)) (a : Option ℚ),
    as.foldl ratioMin a = a ∨ as.foldl ratioMin a ∈ as := by
  intro as
  induction as with
  | nil => exact fun a => Or.inl rfl
  | cons y ys ih =>
    intro a
    rw [List.foldl_cons]
    rcases ih (ratioMin a y) with h | h
    · rcases ratioMin_eq_or a y with h' | h'
      · exact Or.inl (h.trans h')
      · refine Or.inr ?_
        rw [h, h']
        exact List.mem_cons_self y ys
    · exact Or.inr (List.mem_cons_of_mem y h)

/-- The minimum ratio of a nonempty list is one of its elements (Python's
`min` returns an element of the list). -/
theorem ratioMinVal_mem {l : List (Option ℚ)} (h : l ≠ []) : ratioMinVal l ∈ l := by
  cases l with
  | nil => exact absurd rfl h
  | cons a as =>
    have hdef : ratioMinVal (a :: as) = as.foldl ratioMin a := rfl
    rw [hdef]
    rcases foldl_ratioMin_mem as a with h' | h'
    · rw [h']
      exact List.mem_cons_self a as
    · exact List.mem_cons_of_mem a h'

/-- The exit-row index returned by the minimum-ratio selection is a valid row
index whenever not every ratio is infinite. -/
theorem exitIdxOf_lt {l : List (Option ℚ)}
    (h : l.all (fun q => q.isNone) = false) : exitIdxOf l < l.length := by
  have hne : l ≠ [] := by
    intro he
    rw [he] at h
    simp at h
  exact List.findIdx_lt_length_of_exists ⟨ratioMinVal l, ratioMinVal_mem hne, by simp⟩

/-- One pivot of the loop body preserves well-formedness: the new
`basic`/`nonbasic` pair is still a partition of the `n` columns. -/
theorem wf_step {lp : LP} {s s' : SState} (hwf : WF lp s) (h : step lp s = .pivot s') :
    WF lp s' := by
  obtain ⟨Binv, eIdx, eVar, hinv, -, -, -, hg, hrs, hs'⟩ := step_pivot_inv h
  obtain ⟨hAb, hrows, hblen, hperm⟩ := hwf
  obtain ⟨hMlen, -, -, -⟩ := matInv_spec hinv
  have hBinvlen : Binv.length = lp.A.length := by
    simpa [subCols] using hMlen
  have hrslen : (ratioList (matVec Binv lp.b) (matVec Binv (getCol lp.A eVar))).length
      = lp.A.length := by
    simp [ratioList, matVec, hBinvlen]
  have hrlt : exitIdxOf (ratioList (matVec Binv lp.b) (matVec Binv (getCol lp.A eVar)))
      < s.basic.length := by
    have := exitIdxOf_lt hrs
    omega
  have hilt : eIdx < s.nonbasic.length := by
    obtain ⟨hlt, -⟩ := List.getElem?_eq_some_iff.mp hg
    exact hlt
  have heVar : s.nonbasic.getD eIdx 0 = eVar := by
    rw [List.getD_eq_getElem?_getD, hg]
    rfl
  subst hs'
  refine ⟨hAb, hrows, by simpa using hblen, ?_⟩
  have hswap := set_swap_perm (u := s.basic) (v := s.nonbasic) hrlt hilt
  rw [heVar] at hswap
  exact hswap.trans hperm

/-- Shape of one pivot: exactly one basis entry changes — the leaving
variable's row receives the entering variable — and the leaving variable
moves to the non-basic list. -/
theorem step_swap_shape {lp : LP} {s s' : SState} (hwf : WF lp s) (h : step lp s = .pivot s') :
    ∃ r eVar, r < s.basic.length ∧ eVar ∈ s.nonbasic ∧ eVar ∉ s.basic ∧
      s'.basic = s.basic.set r eVar ∧
      s'.basic.getD r 0 = eVar ∧
      s'.basic.getD r 0 ≠ s.basic.getD r 0 ∧
      (∀ i, i ≠ r → s'.basic.getD i 0 = s.basic.getD i 0) ∧
      s.basic.getD r 0 ∈ s'.nonbasic := by
  obtain ⟨Binv, eIdx, eVar, hinv, -, -, -, hg, hrs, hs'⟩ := step_pivot_inv h
  obtain ⟨hAb, hrows, hblen, hperm⟩ := hwf
  obtain ⟨hMlen, -, -, -⟩ := matInv_spec hinv
  have hBinvlen : Binv.length = lp.A.length := by
    simpa [subCols] using hMlen
  have hrslen : (ratioList (matVec Binv lp.b) (matVec Binv (getCol lp.A eVar))).length
      = lp.A.length := by
    simp [ratioList, matVec, hBinvlen]
  have hrlt : exitIdxOf (ratioList (matVec Binv lp.b) (matVec Binv (getCol lp.A eVar)))
      < s.basic.length := by
    have := exitIdxOf_lt hrs
    omega
  obtain ⟨hilt, hgv⟩ := List.getElem?_eq_some_iff.mp hg
  have hmemNon : eVar ∈ s.nonbasic := hgv ▸ List.getElem_mem hilt
  have hnd : (s.basic ++ s.nonbasic).Nodup := hperm.nodup_iff.mpr (List.nodup_range _)
  have hdisj := (List.nodup_append.mp hnd).2.2
  have hne : eVar ∉ s.basic := fun hb => hdisj hb hmemNon
  subst hs'
  revert hrlt
  generalize exitIdxOf (ratioList (matVec Binv lp.b) (matVec Binv (getCol lp.A eVar))) = r
  intro hrlt
  have hmemB : s.basic.getD r 0 ∈ s.basic := by
    rw [getD_lt_eq _ _ _ hrlt]
    exact List.getElem_mem hrlt
  have hlen : r < (s.basic.set r eVar).length := by simpa using hrlt
  have hgetr : (s.basic.set r eVar).getD r 0 = eVar := by
    rw [getD_lt_eq _ _ _ hlen]
    exact List.getElem_set_self hlen
  refine ⟨r, eVar, hrlt, hmemNon, hne, rfl, hgetr, ?_, ?_, ?_⟩
  · rw [hgetr]
    exact fun he => hne (he ▸ hmemB)
  · intro i hir
    by_cases hi : i < s.basic.length
    · have hleni : i < (s.basic.set r eVar).length := by simpa using hi
      rw [getD_lt_eq _ _ _ hleni, getD_lt_eq _ _ _ hi]
      exact List.getElem_set_ne (fun he => hir he.symm) hleni
    · have h1 : s.basic.length ≤ i := not_lt.mp hi
      have h2 : (s.basic.set r eVar).length ≤ i := by simpa using h1
      simp [List.getD_eq_getElem?_getD, List.getElem?_eq_none h1, List.getElem?_eq_none h2]
  · show s.basic.getD r 0 ∈ s.nonbasic.set eIdx (s.basic.getD r 0)
    have hleni : eIdx < (s.nonbasic.set eIdx (s.basic.getD r 0)).length := by simpa using hilt
    have hmem := List.getElem_mem hleni
    rwa [List.getElem_set_self hleni] at hmem

/-- Well-formedness is preserved along any number of successful pivots. -/
theorem wf_stepN {lp : LP} :
    ∀ (k : Nat) (s0 s : SState), WF lp s0 → stepN lp k s0 = some s → WF lp s := by
  intro k
  induction k with
  | zero =>
    intro s0 s hwf hreach
    simp only [stepN] at hreach
    exact Option.some_inj.mp hreach ▸ hwf
  | succ k ih =>
    intro s0 s hwf hreach
    simp only [stepN] at hreach
    cases hst : step lp s0 with
    | pivot s1 =>
      simp only [hst] at hreach
      exact ih s1 s (wf_step hwf hst) hreach
    | infeasible => simp [hst] at hreach
    | optimal => simp [hst] at hreach
    | unbounded => simp [hst] at hreach
    | singular => simp [hst] at hreach
    | indexError => simp [hst] at hreach
    | stuck => simp [hst] at hreach

/-- Claim C2: at every iteration reachable from a well-formed initial state,
`basic_vars ++ nonbasic_vars` is a permutation of the `n` column indices
(hence the two lists are disjoint and jointly contain each variable exactly
once), and a pivot changes exactly one basis entry: the leaving variable's
row position receives the entering variable, every other row keeps its
variable, and the leaving variable joins the non-basic list. -/
theorem claim2_partition_invariant (lp : LP) (k : Nat) (s0 s : SState)
    (hwf : WF lp s0) (hreach : stepN lp k s0 = some s) :
    WF lp s ∧
    ∀ s', step lp s = .pivot s' →
      WF lp s' ∧
      ∃ r eVar, r < s.basic.length ∧ eVar ∈ s.nonbasic ∧ eVar ∉ s.basic ∧
        s'.basic = s.basic.set r eVar ∧
        s'.basic.getD r 0 = eVar ∧
        s'.basic.getD r 0 ≠ s.basic.getD r 0 ∧
        (∀ i, i ≠ r → s'.basic.getD i 0 = s.basic.getD i 0) ∧
        s.basic.getD r 0 ∈ s'.nonbasic := by
  have hwfs : WF lp s := wf_stepN k s0 s hwf hreach
  exact ⟨hwfs, fun s' hs' => ⟨wf_step hwfs hs', step_swap_shape hwfs hs'⟩⟩

/-- Witness for claim C2 along the source's own run: the state after one
pivot is well-formed, and so is the state after the next pivot. -/
theorem claim2_witness :
    WF exA { basic := [4, 5, 0], nonbasic := [6, 1, 2, 3] } ∧
    WF exA { basic := [1, 5, 0], nonbasic := [6, 4, 2, 3] } := by
  have h := claim2_partition_invariant exA 1 exInit { basic := [4, 5, 0], nonbasic := [6, 1, 2, 3] }
    (by decide) (by with_unfolding_all decide)
  exact ⟨h.1, (h.2 { basic := [1, 5, 0], nonbasic := [6, 4, 2, 3] }
    (by with_unfolding_all decide)).1⟩

theorem ratioLE_refl (a : Option ℚ) : ratioLE a a = true := by
  cases a <;> simp [ratioLE]

theorem ratioLE_of_not {a y : Option ℚ} (h : ratioLE a y = false) : ratioLE y a = true := by
  cases a <;> cases y <;> simp_all [ratioLE]
  linarith

theorem ratioLE_trans {a y z : Option ℚ} (h1 : ratioLE a y = true) (h2 : ratioLE y z = true) :
    ratioLE a z = true := by
  cases a <;> cases y <;> cases z <;> simp_all [ratioLE]
  linarith

theorem ratioMin_le_left (a y : Option ℚ) : ratioLE (ratioMin a y) a = true := by
  unfold ratioMin
  split
  · exact ratioLE_refl a
  · rename_i h
    exact ratioLE_of_not (by simpa using h)

theorem ratioMin_le_right (a y : Option ℚ) : ratioLE (ratioMin a y) y = true := by
  unfold ratioMin
  split
  · assumption
  · exact ratioLE_refl y

/-- A `ratioMin` fold is a lower bound of the seed and all elements. -/
theorem foldl_ratioMin_le : ∀ (as : List (Option ℚ)) (a : Option ℚ),
    ratioLE (as.foldl ratioMin a) a = true ∧
    ∀ x ∈ as, ratioLE (as.foldl ratioMin a) x = true := by
  intro as
  induction as with
  | nil => exact fun a => ⟨ratioLE_refl a, by simp⟩
  | cons y ys ih =>
    intro a
    rw [List.foldl_cons]
    obtain ⟨h1, h2⟩ := ih (ratioMin a y)
    refine ⟨ratioLE_trans h1 (ratioMin_le_left a y), ?_⟩
    intro x hx
    rcases List.mem_cons.mp hx with h | h
    · subst h
      exact ratioLE_trans h1 (ratioMin_le_right a x)
    · exact h2 x h

/-- `min(ratios)` is below every element of the list. -/
theorem ratioMinVal_le {l : List (Option ℚ)} {x : Option ℚ} (hx : x ∈ l) :
    ratioLE (ratioMinVal l) x = true := by
  cases l with
  | nil => simp at hx
  | cons a as =>
    have hdef : ratioMinVal (a :: as) = as.foldl ratioMin a := rfl
    rw [hdef]
    rcases List.mem_cons.mp hx with h | h
    · subst h
      exact (foldl_ratioMin_le as x).1
    · exact (foldl_ratioMin_le as a).2 x h

/-- When not every ratio is infinite, the minimum ratio is finite. -/
theorem ratioMinVal_ne_none {l : List (Option ℚ)} (h : l.all (fun q => q.isNone) = false) :
    ratioMinVal l ≠ none := by
  obtain ⟨x, hx, hnx⟩ := List.all_eq_false.mp h
  cases x with
  | none => simp at hnx
  | some q =>
    have hle := ratioMinVal_le hx
    intro he
    rw [he] at hle
    simp [ratioLE] at hle

/-- Entrywise description of the ratio list. -/
theorem ratioList_getD {xbv d : List ℚ} {i : Nat}
    (h1 : i < xbv.length) (h2 : i < d.length) :
    (ratioList xbv d).getD i none =
      if 0 < d.getD i 0 then some (xbv.getD i 0 / d.getD i 0) else none := by
  have hlen : i < (ratioList xbv d).length := by
    simp only [ratioList, List.length_zipWith]
    omega
  rw [getD_lt_eq _ _ _ hlen, getD_lt_eq _ _ _ h1, getD_lt_eq _ _ _ h2]
  simp [ratioList, List.getElem_zipWith]

/-- The exit row holds the minimum ratio. -/
theorem exitIdx_getD_eq {l : List (Option ℚ)} (h : l.all (fun q => q.isNone) = false) :
    l.getD (exitIdxOf l) none = ratioMinVal l := by
  have hlt := exitIdxOf_lt h
  rw [getD_lt_eq _ _ _ hlt]
  exact of_decide_eq_true (List.findIdx_getElem (w := hlt))

/-- Rows before the exit row do not attain the minimum ratio. -/
theorem exitIdx_not_earlier {l : List (Option ℚ)} {i : Nat} (hi : i < exitIdxOf l) :
    l.getD i none ≠ ratioMinVal l := by
  have hilt : i < l.length :=
    Nat.lt_of_lt_of_le hi (List.findIdx_le_length (fun q => decide (q = ratioMinVal l)))
  rw [getD_lt_eq _ _ _ hilt]
  simpa using List.not_of_lt_findIdx hi

/-- An entering index exists only when some reduced cost is positive, so the
optimality test must have failed. -/
theorem all_nonpos_false_of_entering {l : List ℚ} {i : Nat}
    (h : l.findIdx? (fun q => decide (0 < q)) = some i) :
    l.all (fun q => decide (q ≤ 0)) = false := by
  obtain ⟨x, hx, hpx⟩ := exists_of_findIdx?_some h
  rw [decide_eq_true_eq] at hpx
  refine Bool.eq_false_iff.mpr (fun hall => ?_)
  have hle := List.all_eq_true.mp hall x hx
  rw [decide_eq_true_eq] at hle
  exact absurd hpx (not_lt.mpr hle)

/-- Claim C6: at a pivot, each row `i` with `d_i > 0` carries the ratio
`xB_i / d_i` and each row with `d_i ≤ 0` an infinite ratio; the leaving row
is a valid row with `d > 0` holding a ratio that is `≤` every other row's
ratio and different from every earlier row's ratio (first-wins tie-break),
and the entering variable replaces exactly that row of the basis. -/
theorem claim6_min_ratio_rule (lp : LP) (s : SState) (Binv : List (List ℚ)) (eIdx eVar : Nat)
    (hinv : matInv (subCols lp.A s.basic) = some Binv)
    (hfeas : (matVec Binv lp.b).any (fun v => decide (v < 0)) = false)
    (hent : (zRow lp Binv s).findIdx? (fun q => decide (0 < q)) = some eIdx)
    (hvar : s.nonbasic[eIdx]? = some eVar)
    (hfin : (ratioList (matVec Binv lp.b) (matVec Binv (getCol lp.A eVar))).all
      (fun q => q.isNone) = false) :
    step lp s = .pivot
      ⟨s.basic.set
         (exitIdxOf (ratioList (matVec Binv lp.b) (matVec Binv (getCol lp.A eVar)))) eVar,
       s.nonbasic.set eIdx (s.basic.getD
         (exitIdxOf (ratioList (matVec Binv lp.b) (matVec Binv (getCol lp.A eVar)))) 0)⟩ ∧
    (∀ i < (ratioList (matVec Binv lp.b) (matVec Binv (getCol lp.A eVar))).length,
      (ratioList (matVec Binv lp.b) (matVec Binv (getCol lp.A eVar))).getD i none =
        if 0 < (matVec Binv (getCol lp.A eVar)).getD i 0
        then some ((matVec Binv lp.b).getD i 0 / (matVec Binv (getCol lp.A eVar)).getD i 0)
        else none) ∧
    exitIdxOf (ratioList (matVec Binv lp.b) (matVec Binv (getCol lp.A eVar)))
      < (ratioList (matVec Binv lp.b) (matVec Binv (getCol lp.A eVar))).length ∧
    0 < (matVec Binv (getCol lp.A eVar)).getD
      (exitIdxOf (ratioList (matVec Binv lp.b) (matVec Binv (getCol lp.A eVar)))) 0 ∧
    (∀ i < (ratioList (matVec Binv lp.b) (matVec Binv (getCol lp.A eVar))).length,
      ratioLE
        ((ratioList (matVec Binv lp.b) (matVec Binv (getCol lp.A eVar))).getD
          (exitIdxOf (ratioList (matVec Binv lp.b) (matVec Binv (getCol lp.A eVar)))) none)
        ((ratioList (matVec Binv lp.b) (matVec Binv (getCol lp.A eVar))).getD i none) = true) ∧
    (∀ i < exitIdxOf (ratioList (matVec Binv lp.b) (matVec Binv (getCol lp.A eVar))),
      (ratioList (matVec Binv lp.b) (matVec Binv (getCol lp.A eVar))).getD i none ≠
        (ratioList (matVec Binv lp.b) (matVec Binv (getCol lp.A eVar))).getD
          (exitIdxOf (ratioList (matVec Binv lp.b) (matVec Binv (getCol lp.A eVar)))) none) := by
  have hallz := all_nonpos_false_of_entering hent
  have hstep : step lp s = .pivot
      ⟨s.basic.set
         (exitIdxOf (ratioList (matVec Binv lp.b) (matVec Binv (getCol lp.A eVar)))) eVar,
       s.nonbasic.set eIdx (s.basic.getD
         (exitIdxOf (ratioList (matVec Binv lp.b) (matVec Binv (getCol lp.A eVar)))) 0)⟩ := by
    simp only [step, hinv, hfeas, cond_false, hallz, hent, hvar, hfin]
  have hrlt := exitIdxOf_lt hfin
  have hlenmin : (ratioList (matVec Binv lp.b) (matVec Binv (getCol lp.A eVar))).length =
      min (matVec Binv lp.b).length (matVec Binv (getCol lp.A eVar)).length := by
    simp [ratioList]
  have hchar : ∀ i < (ratioList (matVec Binv lp.b) (matVec Binv (getCol lp.A eVar))).length,
      (ratioList (matVec Binv lp.b) (matVec Binv (getCol lp.A eVar))).getD i none =
        if 0 < (matVec Binv (getCol lp.A eVar)).getD i 0
        then some ((matVec Binv lp.b).getD i 0 / (matVec Binv (getCol lp.A eVar)).getD i 0)
        else none := by
    intro i hi
    rw [hlenmin] at hi
    exact ratioList_getD (by omega) (by omega)
  have hgetr := exitIdx_getD_eq hfin
  have hnn := ratioMinVal_ne_none hfin
  have hdpos : 0 < (matVec Binv (getCol lp.A eVar)).getD
      (exitIdxOf (ratioList (matVec Binv lp.b) (matVec Binv (getCol lp.A eVar)))) 0 := by
    by_contra hd
    have hc := hchar _ hrlt
    rw [if_neg hd] at hc
    exact hnn (hgetr.symm.trans hc)
  refine ⟨hstep, hchar, hrlt, hdpos, ?_, ?_⟩
  · intro i hi
    rw [hgetr]
    have hmem : (ratioList (matVec Binv lp.b) (matVec Binv (getCol lp.A eVar))).getD i none
        ∈ ratioList (matVec Binv lp.b) (matVec Binv (getCol lp.A eVar)) := by
      rw [getD_lt_eq _ _ _ hi]
      exact List.getElem_mem hi
    exact ratioMinVal_le hmem
  · intro i hi
    rw [hgetr]
    exact exitIdx_not_earlier hi

/-- Witness for claim C6 at the source's initial tableau: ratios
`(6/1, 12/2, 2/1)`, minimum `2` in row 2, whose direction entry is `1 > 0`. -/
theorem claim6_witness :
    step exA exInit = .pivot { basic := [4, 5, 0], nonbasic := [6, 1, 2, 3] } ∧
    exitIdxOf (ratioList (matVec [[1, 0, 0], [0, 1, 0], [0, 0, 1]] exA.b)
        (matVec [[1, 0, 0], [0, 1, 0], [0, 0, 1]] (getCol exA.A 0))) <
      (ratioList (matVec [[1, 0, 0], [0, 1, 0], [0, 0, 1]] exA.b)
        (matVec [[1, 0, 0], [0, 1, 0], [0, 0, 1]] (getCol exA.A 0))).length ∧
    0 < (matVec [[1, 0, 0], [0, 1, 0], [0, 0, 1]] (getCol exA.A 0)).getD
      (exitIdxOf (ratioList (matVec [[1, 0, 0], [0, 1, 0], [0, 0, 1]] exA.b)
        (matVec [[1, 0, 0], [0, 1, 0], [0, 0, 1]] (getCol exA.A 0)))) 0 ∧
    ratioLE
      ((ratioList (matVec [[1, 0, 0], [0, 1, 0], [0, 0, 1]] exA.b)
          (matVec [[1, 0, 0], [0, 1, 0], [0, 0, 1]] (getCol exA.A 0))).getD
        (exitIdxOf (ratioList (matVec [[1, 0, 0], [0, 1, 0], [0, 0, 1]] exA.b)
          (matVec [[1, 0, 0], [0, 1, 0], [0, 0, 1]] (getCol exA.A 0)))) none)
      ((ratioList (matVec [[1, 0, 0], [0, 1, 0], [0, 0, 1]] exA.b)
          (matVec [[1, 0, 0], [0, 1, 0], [0, 0, 1]] (getCol exA.A 0))).getD 0 none) = true := by
  have h := claim6_min_ratio_rule exA exInit [[1, 0, 0], [0, 1, 0], [0, 0, 1]] 0 0
    (by with_unfolding_all decide) (by with_unfolding_all decide)
    (by with_unfolding_all decide) (by with_unfolding_all decide)
    (by with_unfolding_all decide)
  exact ⟨by with_unfolding_all decide, h.2.2.1, h.2.2.2.1,
    h.2.2.2.2.1 0 (by with_unfolding_all decide)⟩

/-- A dot product of equal-length vectors as a `Finset.range` sum. -/
theorem dot_eq_sum : ∀ (u v : List ℚ), u.length = v.length →
    dot u v = ∑ j ∈ Finset.range u.length, u.getD j 0 * v.getD j 0 := by
  intro u
  induction u with
  | nil => intro v h; simp [dot]
  | cons a u' ih =>
    intro v h
    cases v with
    | nil => simp at h
    | cons b v' =>
      have h' : u'.length = v'.length := by simpa using h
      have hdot : dot (a :: u') (b :: v') = a * b + dot u' v' := by
        simp [dot]
      rw [hdot, List.length_cons, Finset.sum_range_succ']
      simp only [List.getD_cons_succ, List.getD_cons_zero]
      rw [← ih v' h']
      exact add_comm _ _

/-- Reading an entry of a map over `List.range`. -/
theorem getD_range_map {α : Type} (f : Nat → α) (d : α) {n j : Nat} (h : j < n) :
    ((List.range n).map f).getD j d = f j := by
  rw [getD_lt_eq _ _ _ (by simpa using h)]
  simp

theorem length_matVec (M : List (List ℚ)) (v : List ℚ) : (matVec M v).length = M.length := by
  simp [matVec]

theorem length_getCol (M : List (List ℚ)) (j : Nat) : (getCol M j).length = M.length := by
  simp [getCol]

theorem length_subCols (M : List (List ℚ)) (cols : List Nat) :
    (subCols M cols).length = M.length := by
  simp [subCols]

theorem matVec_getD {M : List (List ℚ)} {v : List ℚ} {i : Nat} (h : i < M.length) :
    (matVec M v).getD i 0 = dot (M.getD i []) v := by
  have h2 : i < (matVec M v).length := by simpa [matVec] using h
  rw [getD_lt_eq _ _ _ h2, getD_lt_eq _ _ _ h]
  simp [matVec]

theorem getCol_getD {M : List (List ℚ)} {j i : Nat} (h : i < M.length) :
    (getCol M j).getD i 0 = (M.getD i []).getD j 0 := by
  have h2 : i < (getCol M j).length := by simpa [getCol] using h
  rw [getD_lt_eq _ _ _ h2, getD_lt_eq _ _ _ h]
  simp [getCol]

/-- Entries of a list element are entries of the matrix. -/
theorem getD_mem_of_lt {M : List (List ℚ)} {i : Nat} (h : i < M.length) :
    M.getD i [] ∈ M := by
  rw [getD_lt_eq _ _ _ h]
  exact List.getElem_mem h

/-- Setting at one index leaves other indices unchanged (with default). -/
theorem getD_set_ne {α : Type} {l : List α} {i j : Nat} {x : α} (d : α) (h : i ≠ j) :
    (l.set i x).getD j d = l.getD j d := by
  by_cases hj : j < l.length
  · have hj2 : j < (l.set i x).length := by simpa using hj
    rw [getD_lt_eq _ _ _ hj2, getD_lt_eq _ _ _ hj]
    exact List.getElem_set_ne h hj2
  · have h1 : l.length ≤ j := not_lt.mp hj
    have h2 : (l.set i x).length ≤ j := by simpa using h1
    simp [List.getD_eq_getElem?_getD, List.getElem?_eq_none h1, List.getElem?_eq_none h2]

/-- Setting at an in-range index writes the value (with default). -/
theorem getD_set_self {α : Type} {l : List α} {i : Nat} {x : α} (d : α) (h : i < l.length) :
    (l.set i x).getD i d = x := by
  have h2 : i < (l.set i x).length := by simpa using h
  rw [getD_lt_eq _ _ _ h2]
  exact List.getElem_set_self h2

/-- The objective reported at the end (source line 150) is the dot product
`c · x`. -/
theorem sum_range_map_eq_dot : ∀ (u v : List ℚ), u.length = v.length →
    ((List.range u.length).map (fun i => u.getD i 0 * v.getD i 0)).sum = dot u v := by
  intro u
  induction u with
  | nil => intro v h; simp [dot]
  | cons a u' ih =>
    intro v h
    cases v with
    | nil => simp at h
    | cons b v' =>
      have h' : u'.length = v'.length := by simpa using h
      rw [List.length_cons, List.range_succ_eq_map]
      simp only [List.map_cons, List.map_map, List.sum_cons, List.getD_cons_zero]
      have hmap : (List.range u'.length).map
            ((fun i => (a :: u').getD i 0 * (b :: v').getD i 0) ∘ (· + 1)) =
          (List.range u'.length).map (fun i => u'.getD i 0 * v'.getD i 0) := by
        apply List.map_congr_left
        intro i hi
        simp
      rw [hmap, ih v' h']
      simp [dot]

/-- Associativity `(P·Q)·v = P·(Q·v)` for well-shaped list matrices. -/
theorem matVec_assoc {P Q : List (List ℚ)} {v : List ℚ}
    (hP : ∀ p ∈ P, p.length = Q.length)
    (hQ : ∀ q ∈ Q, q.length = v.length)
    (hK : (Q.headD []).length = v.length) :
    matVec (matMul P Q) v = matVec P (matVec Q v) := by
  unfold matVec matMul
  rw [List.map_map]
  apply List.map_congr_left
  intro p hp
  have hplen := hP p hp
  show dot ((List.range (Q.headD []).length).map (fun j => dot p (getCol Q j))) v
      = dot p ((Q.map (fun r => dot r v)))
  rw [hK]
  rw [dot_eq_sum _ _ (by simp), dot_eq_sum p (Q.map (fun r => dot r v)) (by simpa using hplen)]
  simp only [List.length_map, List.length_range]
  have e1 : ∀ j ∈ Finset.range v.length,
      ((List.range v.length).map (fun j => dot p (getCol Q j))).getD j 0 * v.getD j 0
        = (∑ i ∈ Finset.range Q.length, p.getD i 0 * (Q.getD i []).getD j 0) * v.getD j 0 := by
    intro j hj
    rw [Finset.mem_range] at hj
    rw [getD_range_map _ _ hj]
    rw [dot_eq_sum p (getCol Q j) (by simp [getCol, hplen])]
    rw [hplen]
    congr 1
    apply Finset.sum_congr rfl
    intro i hi
    rw [Finset.mem_range] at hi
    rw [getCol_getD hi]
  have e3 : ∀ j ∈ Finset.range v.length,
      (∑ i ∈ Finset.range Q.length, p.getD i 0 * (Q.getD i []).getD j 0) * v.getD j 0
        = ∑ i ∈ Finset.range Q.length, p.getD i 0 * (Q.getD i []).getD j 0 * v.getD j 0 :=
    fun j _ => Finset.sum_mul _ _ _
  have e2 : ∀ i ∈ Finset.range p.length,
      p.getD i 0 * (Q.map (fun r => dot r v)).getD i 0
        = p.getD i 0 * ∑ j ∈ Finset.range v.length, (Q.getD i []).getD j 0 * v.getD j 0 := by
    intro i hi
    rw [Finset.mem_range, hplen] at hi
    have hmv : (Q.map (fun r => dot r v)).getD i 0 = dot (Q.getD i []) v := by
      have h2 : i < (Q.map (fun r => dot r v)).length := by simpa using hi
      rw [getD_lt_eq _ _ _ h2, getD_lt_eq _ _ _ hi]
      simp
    rw [hmv, dot_eq_sum _ _ (hQ _ (getD_mem_of_lt hi)), hQ _ (getD_mem_of_lt hi)]
  rw [Finset.sum_congr rfl e1, Finset.sum_congr rfl e3, Finset.sum_comm,
    Finset.sum_congr rfl e2, hplen]
  apply Finset.sum_congr rfl
  intro i _
  rw [Finset.mul_sum]
  apply Finset.sum_congr rfl
  intro j _
  ring

/-- The identity matrix acts as the identity on vectors. -/
theorem matVec_idMat (v : List ℚ) : matVec (idMat v.length) v = v := by
  apply List.ext_getElem
  · simp [matVec, idMat]
  · intro i h1 h2
    have hi : i < v.length := h2
    have hlen : i < (idMat v.length).length := by simp [idMat, hi]
    have hrow : (idMat v.length).getD i [] =
        (List.range v.length).map (fun j => if i = j then (1 : ℚ) else 0) := by
      unfold idMat
      rw [getD_range_map _ _ hi]
    have : (matVec (idMat v.length) v).getD i 0 = v.getD i 0 := by
      rw [matVec_getD hlen, hrow]
      rw [dot_eq_sum _ _ (by simp)]
      simp only [List.length_map, List.length_range]
      have e1 : ∀ j ∈ Finset.range v.length,
          ((List.range v.length).map (fun j => if i = j then (1 : ℚ) else 0)).getD j 0
              * v.getD j 0
            = if i = j then v.getD j 0 else 0 := by
        intro j hj
        rw [Finset.mem_range] at hj
        rw [getD_range_map _ _ hj]
        split <;> simp
      rw [Finset.sum_congr rfl e1, Finset.sum_ite_eq]
      simp [hi]
    rw [getD_lt_eq _ _ _ (by simpa [matVec, idMat] using hi), getD_lt_eq _ _ _ hi] at this
    exact this

/-- Writing a list of (position, value) pairs preserves the length. -/
theorem foldl_set_length (pairs : List (Nat × ℚ)) :
    ∀ init : List ℚ, (pairs.foldl (fun acc q => acc.set q.1 q.2) init).length = init.length := by
  induction pairs with
  | nil => intro init; rfl
  | cons q ps ih =>
    intro init
    rw [List.foldl_cons]
    rw [ih (init.set q.1 q.2)]
    simp

/-- Positions not written by any pair keep their initial value. -/
theorem foldl_set_getD_untouched {pairs : List (Nat × ℚ)} {j : Nat}
    (hj : j ∉ pairs.map Prod.fst) :
    ∀ init : List ℚ, (pairs.foldl (fun acc q => acc.set q.1 q.2) init).getD j 0
      = init.getD j 0 := by
  induction pairs with
  | nil => intro init; rfl
  | cons q ps ih =>
    intro init
    rw [List.map_cons] at hj
    have hj1 : j ≠ q.1 := fun he => hj (he ▸ List.mem_cons_self _ _)
    have hj2 : j ∉ ps.map Prod.fst := fun hm => hj (List.mem_cons_of_mem _ hm)
    rw [List.foldl_cons, ih hj2 (init.set q.1 q.2), getD_set_ne 0 (fun he => hj1 he.symm)]

/-- Written positions hold their written value, provided the written
positions are distinct and in range. -/
theorem foldl_set_getD_written : ∀ (pairs : List (Nat × ℚ)) (init : List ℚ),
    (pairs.map Prod.fst).Nodup → (∀ p ∈ pairs, p.1 < init.length) →
    ∀ p ∈ pairs, (pairs.foldl (fun acc q => acc.set q.1 q.2) init).getD p.1 0 = p.2 := by
  intro pairs
  induction pairs with
  | nil => intro init _ _ p hp; simp at hp
  | cons q ps ih =>
    intro init hnd hbound p hp
    rw [List.map_cons, List.nodup_cons] at hnd
    rw [List.foldl_cons]
    rcases List.mem_cons.mp hp with h | h
    · subst h
      rw [foldl_set_getD_untouched hnd.1 (init.set p.1 p.2)]
      exact getD_set_self 0 (hbound p (List.mem_cons_self _ _))
    · exact ih (init.set q.1 q.2) hnd.2
        (fun p' hp' => by
          have := hbound p' (List.mem_cons_of_mem q hp')
          simpa using this) p h

/-- Every entry of the written list is an initial entry or a written value. -/
theorem foldl_set_mem : ∀ (pairs : List (Nat × ℚ)) (init : List ℚ) (v : ℚ),
    v ∈ pairs.foldl (fun acc q => acc.set q.1 q.2) init →
    v ∈ init ∨ v ∈ pairs.map Prod.snd := by
  intro pairs
  induction pairs with
  | nil => intro init v hv; exact Or.inl hv
  | cons q ps ih =>
    intro init v hv
    rw [List.foldl_cons] at hv
    rcases ih (init.set q.1 q.2) v hv with h | h
    · rcases List.mem_or_eq_of_mem_set h with h' | h'
      · exact Or.inl h'
      · exact Or.inr (h' ▸ List.mem_cons_self _ _)
    · exact Or.inr (List.mem_cons_of_mem _ h)

/-- Zipping a list with itself is mapping the diagonal. -/
theorem zipWith_same {α β : Type} (f : α → α → β) :
    ∀ l : List α, List.zipWith f l l = l.map (fun a => f a a) := by
  intro l
  induction l with
  | nil => rfl
  | cons a l ih => simp [ih]

/-- Dot product against a sparse vector `x`: only the written positions
contribute. -/
theorem dot_scatter {row x : List ℚ} {pairs : List (Nat × ℚ)}
    (hlen : row.length = x.length)
    (hnd : (pairs.map Prod.fst).Nodup)
    (hmem : ∀ p ∈ pairs, p.1 < x.length ∧ x.getD p.1 0 = p.2)
    (hzero : ∀ j < x.length, j ∉ pairs.map Prod.fst → x.getD j 0 = 0) :
    dot row x = dot (pairs.map (fun p => row.getD p.1 0)) (pairs.map Prod.snd) := by
  have hsub : (pairs.map Prod.fst).toFinset ⊆ Finset.range x.length := by
    intro j hj
    rw [List.mem_toFinset, List.mem_map] at hj
    obtain ⟨p, hp, hpj⟩ := hj
    rw [Finset.mem_range]
    exact hpj ▸ (hmem p hp).1
  have hdrop : ∀ j ∈ Finset.range x.length, j ∉ (pairs.map Prod.fst).toFinset →
      row.getD j 0 * x.getD j 0 = 0 := by
    intro j hj hnj
    rw [Finset.mem_range] at hj
    rw [List.mem_toFinset] at hnj
    rw [hzero j hj hnj, mul_zero]
  rw [dot_eq_sum _ _ hlen, hlen, ← Finset.sum_subset hsub hdrop]
  rw [List.sum_toFinset _ hnd, List.map_map]
  have hmapeq : (pairs.map ((fun j => row.getD j 0 * x.getD j 0) ∘ Prod.fst))
      = pairs.map (fun p => row.getD p.1 0 * p.2) := by
    apply List.map_congr_left
    intro p hp
    simp only [Function.comp]
    rw [(hmem p hp).2]
  rw [hmapeq]
  unfold dot
  rw [List.zipWith_map (fun a y => a * y) (fun p : Nat × ℚ => row.getD p.1 0) Prod.snd pairs pairs]
  rw [zipWith_same]

/-- The head (with default) of a nonempty list is an element. -/
theorem headD_mem {α : Type} {l : List α} (d : α) (h : l ≠ []) : l.headD d ∈ l := by
  cases l with
  | nil => exact absurd rfl h
  | cons a as => exact List.mem_cons_self a as

theorem getD_replicate_zero (n j : Nat) : (List.replicate n (0 : ℚ)).getD j 0 = 0 := by
  rw [List.getD_eq_getElem?_getD]
  cases h : (List.replicate n (0 : ℚ))[j]? with
  | none => rfl
  | some v =>
    obtain ⟨hlt, hv⟩ := List.getElem?_eq_some_iff.mp h
    rw [List.getElem_replicate] at hv
    rw [← hv]
    rfl

/-- At an optimality stop from a well-formed state, the reconstructed full
solution satisfies `A·x = b`, is non-negative, and its reported objective is
`c·x`. -/
theorem optimal_state_solution {lp : LP} {s : SState} (hwf : WF lp s)
    (hopt : step lp s = .optimal) :
    ∃ Binv, matInv (subCols lp.A s.basic) = some Binv ∧
      matVec lp.A (finalSolution lp s (matVec Binv lp.b)) = lp.b ∧
      (∀ v ∈ finalSolution lp s (matVec Binv lp.b), 0 ≤ v) ∧
      objFinal lp (finalSolution lp s (matVec Binv lp.b)) =
        dot lp.c (finalSolution lp s (matVec Binv lp.b)) := by
  obtain ⟨Binv, hinv, hfeas, -⟩ := step_optimal_inv hopt
  obtain ⟨hAb, hrows, hblen, hperm⟩ := hwf
  obtain ⟨hMlen, hMrows, hMB, hBM⟩ := matInv_spec hinv
  have hsublen : (subCols lp.A s.basic).length = lp.A.length := length_subCols _ _
  have hBinvlen : Binv.length = lp.A.length := by rw [hMlen, hsublen]
  have hxbvlen : (matVec Binv lp.b).length = lp.A.length := by
    rw [length_matVec, hBinvlen]
  have hbasxbv : s.basic.length = (matVec Binv lp.b).length := by omega
  have hxdef : finalSolution lp s (matVec Binv lp.b)
      = (s.basic.zip (matVec Binv lp.b)).foldl (fun acc q => acc.set q.1 q.2)
          (List.replicate lp.c.length 0) := rfl
  have hxlen : (finalSolution lp s (matVec Binv lp.b)).length = lp.c.length := by
    rw [hxdef, foldl_set_length]
    simp
  have hfst : (s.basic.zip (matVec Binv lp.b)).map Prod.fst = s.basic :=
    List.map_fst_zip _ _ (le_of_eq hbasxbv)
  have hsnd : (s.basic.zip (matVec Binv lp.b)).map Prod.snd = matVec Binv lp.b :=
    List.map_snd_zip _ _ (le_of_eq hbasxbv.symm)
  have hndfull : (s.basic ++ s.nonbasic).Nodup := hperm.nodup_iff.mpr (List.nodup_range _)
  have hndbasic : s.basic.Nodup := (List.nodup_append.mp hndfull).1
  have hndfst : ((s.basic.zip (matVec Binv lp.b)).map Prod.fst).Nodup := by
    rw [hfst]
    exact hndbasic
  have hbound : ∀ v ∈ s.basic, v < lp.c.length := fun v hv =>
    List.mem_range.mp (hperm.mem_iff.mp (List.mem_append_left _ hv))
  have hpbound : ∀ p ∈ s.basic.zip (matVec Binv lp.b), p.1 < (List.replicate lp.c.length (0:ℚ)).length := by
    intro p hp
    have := hbound p.1 (List.of_mem_zip hp).1
    simpa using this
  have hwritten : ∀ p ∈ s.basic.zip (matVec Binv lp.b),
      p.1 < (finalSolution lp s (matVec Binv lp.b)).length ∧
      (finalSolution lp s (matVec Binv lp.b)).getD p.1 0 = p.2 := by
    intro p hp
    constructor
    · rw [hxlen]
      exact hbound p.1 (List.of_mem_zip hp).1
    · rw [hxdef]
      exact foldl_set_getD_written _ _ hndfst hpbound p hp
  have hzero : ∀ j < (finalSolution lp s (matVec Binv lp.b)).length,
      j ∉ (s.basic.zip (matVec Binv lp.b)).map Prod.fst →
      (finalSolution lp s (matVec Binv lp.b)).getD j 0 = 0 := by
    intro j _ hj
    rw [hxdef, foldl_set_getD_untouched hj, getD_replicate_zero]
  have hx_row : ∀ r ∈ lp.A, dot r (finalSolution lp s (matVec Binv lp.b))
      = dot (s.basic.map (fun j => r.getD j 0)) (matVec Binv lp.b) := by
    intro r hr
    rw [dot_scatter (by rw [hrows r hr, hxlen]) hndfst hwritten hzero]
    have hm1 : (s.basic.zip (matVec Binv lp.b)).map (fun p => r.getD p.1 0)
        = s.basic.map (fun j => r.getD j 0) := by
      have : (fun p : Nat × ℚ => r.getD p.1 0) = (fun j => r.getD j 0) ∘ Prod.fst := rfl
      rw [this, ← List.map_map, hfst]
    rw [hm1, hsnd]
  have hAx : matVec lp.A (finalSolution lp s (matVec Binv lp.b))
      = matVec (subCols lp.A s.basic) (matVec Binv lp.b) := by
    unfold matVec subCols
    rw [List.map_map]
    apply List.map_congr_left
    intro r hr
    exact hx_row r hr
  have hassoc : matVec (subCols lp.A s.basic) (matVec Binv lp.b)
      = matVec (matMul (subCols lp.A s.basic) Binv) lp.b := by
    symm
    apply matVec_assoc
    · intro p hp
      obtain ⟨r0, -, rfl⟩ := List.mem_map.mp hp
      simp only [List.length_map]
      omega
    · intro q hq
      rw [hMrows q hq, hsublen, hAb]
    · by_cases hB0 : Binv = []
      · rw [hB0]
        have : lp.b.length = 0 := by
          rw [hB0] at hBinvlen
          simp at hBinvlen
          omega
        simp [this]
      · rw [hMrows _ (headD_mem [] hB0), hsublen, hAb]
  have hid : matVec (matMul (subCols lp.A s.basic) Binv) lp.b = lp.b := by
    rw [hBM, hsublen, hAb]
    exact matVec_idMat lp.b
  have hfeas' : ∀ v ∈ matVec Binv lp.b, 0 ≤ v := by
    intro v hv
    have hnv := List.any_eq_false.mp hfeas v hv
    rw [decide_eq_true_eq] at hnv
    exact not_lt.mp hnv
  have hnonneg : ∀ v ∈ finalSolution lp s (matVec Binv lp.b), 0 ≤ v := by
    intro v hv
    rw [hxdef] at hv
    rcases foldl_set_mem _ _ v hv with h | h
    · rw [List.eq_of_mem_replicate h]
    · rw [hsnd] at h
      exact hfeas' v h
  have hobj : objFinal lp (finalSolution lp s (matVec Binv lp.b))
      = dot lp.c (finalSolution lp s (matVec Binv lp.b)) := by
    unfold objFinal
    have := sum_range_map_eq_dot lp.c (finalSolution lp s (matVec Binv lp.b)) (by omega)
    exact this
  exact ⟨Binv, hinv, hAx.trans (hassoc.trans hid), hnonneg, hobj⟩

/-- Claim C5: whenever the loop terminates reporting an optimal solution
(from any well-formed initial state), the returned vector gives each basic
variable its `B⁻¹b` component in tableau row order and `0` to every other
variable (`finalSolution`), satisfies `A·x = b` and `x ≥ 0` (hence
`x ≥ −ε` for every `ε ≥ 0`; arithmetic is exact), and the reported objective
value is `c·x`. -/
theorem claim5_solution_properties (lp : LP) (fuel : Nat) (s0 s : SState)
    (x : List ℚ) (z : ℚ) (hwf : WF lp s0) (hrun : run lp fuel s0 = .optimal s x z) :
    (∃ Binv, matInv (subCols lp.A s.basic) = some Binv ∧
      x = finalSolution lp s (matVec Binv lp.b)) ∧
    matVec lp.A x = lp.b ∧ (∀ v ∈ x, 0 ≤ v) ∧ z = dot lp.c x := by
  induction fuel generalizing s0 with
  | zero => simp [run] at hrun
  | succ fuel ih =>
    cases hst : step lp s0 with
    | pivot s1 =>
      simp only [run, hst] at hrun
      exact ih s1 (wf_step hwf hst) hrun
    | optimal =>
      obtain ⟨Binv, hinv, -, -⟩ := step_optimal_inv hst
      simp only [run, hst, hinv] at hrun
      cases hrun
      obtain ⟨B', hinv', hAx, hnn, hobj⟩ := optimal_state_solution hwf hst
      rw [hinv, Option.some_inj] at hinv'
      subst hinv'
      exact ⟨⟨Binv, hinv, rfl⟩, hAx, hnn, hobj⟩
    | infeasible => simp [run, hst] at hrun
    | unbounded => simp [run, hst] at hrun
    | singular => simp [run, hst] at hrun
    | indexError => simp [run, hst] at hrun
    | stuck => simp [run, hst] at hrun

/-- Witness for claim C5 on the source's instance: the returned solution
`x = (2/3, 0, 4/3, 0, 0, 12, 0)` satisfies `A·x = b` and the reported
`Z = 28/3` equals `c·x`. -/
theorem claim5_witness :
    matVec exA.A [2/3, 0, 4/3, 0, 0, 12, 0] = exA.b ∧
    (28/3 : ℚ) = dot exA.c [2/3, 0, 4/3, 0, 0, 12, 0] := by
  have h := claim5_solution_properties exA 10 exInit optState
    [2/3, 0, 4/3, 0, 0, 12, 0] (28/3) (by decide) (by with_unfolding_all decide)
  exact ⟨h.2.1, h.2.2.2⟩
